import Mathlib

/-!
Verification of the BFGS implementation (finite-difference gradients and
Hessians, golden-section line search, BFGS outer loop).

The embedding works over exact rationals `ℚ` in place of Python floats.
Python lists become `List ℚ`, `numpy` matrices become `Matrix (Fin n) (Fin n) ℚ`,
`scipy.misc.derivative f x0 dx` (default order 3) is the centred difference
`(f (x0 + dx) - f (x0 - dx)) / (2 * dx)`, and a Python function that can fall
off its end returns an `Option`.  The `while` loop of the line search is
embedded as a fuel-indexed step function `gsAux` (`none` = still running).
-/

/-- Default increment `dx = 1e-6` used by the source when `partial_derivative`
is called without an explicit `dx`. -/
def dxDefault : ℚ := 1 / 1000000

/-- Embedding of `partial_derivative(func, arr, dx)`: gradient of an n-ary
function by centred differences.  For each `i`, the source copies `arr` into
`arr2`, overwrites slot `i`, and applies `func`; the copy-then-set is the pure
`arr.set i _`. -/
def pderiv (func : List ℚ → ℚ) (arr : List ℚ) (dx : ℚ) : List ℚ :=
  (List.range arr.length).map fun i =>
    (func (arr.set i (arr.getD i 0 + dx)) - func (arr.set i (arr.getD i 0 - dx))) / (2 * dx)

/-- Embedding of `get_hessian(func, x0, dx)`: nested centred differences.
`f2 xj` rebuilds `x1 = list(x0); x1[j] = xj` and differentiates in direction
`i` around `x1[i]`, exactly as the source's nested closures do. -/
def get_hessian (func : List ℚ → ℚ) (x0 : List ℚ) (dx : ℚ) : List (List ℚ) :=
  (List.range x0.length).map fun i =>
    (List.range x0.length).map fun j =>
      let f2 : ℚ → ℚ := fun xj =>
        let x1 := x0.set j xj
        (func (x1.set i (x1.getD i 0 + dx)) - func (x1.set i (x1.getD i 0 - dx))) / (2 * dx)
      (f2 (x0.getD j 0 + dx) - f2 (x0.getD j 0 - dx)) / (2 * dx)

/-- Loop state of `golden_section_for_line_search`: the bracket `[a0, b0]`,
the two probe points `a1 ≤?` `b1`, and the cached values `fa = f a1`,
`fb = f b1`. -/
structure GS where
  a0 : ℚ
  a1 : ℚ
  b1 : ℚ
  b0 : ℚ
  fa : ℚ
  fb : ℚ

/-- Initial state of the line search: `a1 = a0 + 0.382 (b0 - a0)`,
`b1 = b0 - 0.382 (b0 - a0)` with `0.382 = 191/500`. -/
def gsInit (f : ℚ → ℚ) (a0 b0 : ℚ) : GS :=
  { a0 := a0, b0 := b0
    a1 := a0 + (191 / 500) * (b0 - a0)
    b1 := b0 - (191 / 500) * (b0 - a0)
    fa := f (a0 + (191 / 500) * (b0 - a0))
    fb := f (b0 - (191 / 500) * (b0 - a0)) }

/-- One iteration of the `while` body of `golden_section_for_line_search`. -/
def gsStep (f : ℚ → ℚ) (s : GS) : GS :=
  if s.fa ≤ s.fb then
    { a0 := s.a0, b0 := s.b1, b1 := s.a1
      a1 := s.a0 + (191 / 500) * (s.b1 - s.a0)
      fa := f (s.a0 + (191 / 500) * (s.b1 - s.a0))
      fb := s.fa }
  else
    { a0 := s.a1, b0 := s.b0, a1 := s.b1
      b1 := s.b0 - (191 / 500) * (s.b0 - s.a1)
      fa := s.fb
      fb := f (s.b0 - (191 / 500) * (s.b0 - s.a1)) }

/-- Fuel-indexed embedding of the `while b1 - a1 > epsilon` loop.
`none` means the loop is still running after the given number of guard
checks; `some r` means it exited and returned `(a1 + b1) / 2`. -/
def gsAux (f : ℚ → ℚ) (ε : ℚ) : ℕ → GS → Option ℚ
  | 0, _ => none
  | fuel + 1, s =>
    if ε < s.b1 - s.a1 then gsAux f ε fuel (gsStep f s)
    else some ((s.a1 + s.b1) / 2)

/-- Fuel sufficient for the loop to finish whenever `ε > 0` (proved below):
every two iterations shrink the bracket width by a factor `309/500`. -/
def gsFuel (a0 b0 ε : ℚ) : ℕ := 4 * (Int.toNat ⌈(b0 - a0) / ε⌉) + 1

/-- Embedding of `golden_section_for_line_search(func, a0, b0, epsilon)`.
For `ε > 0` the fuel is provably sufficient, so the `getD 0` default is
never taken on the paths the program exercises. -/
def golden_section_for_line_search (f : ℚ → ℚ) (a0 b0 ε : ℚ) : ℚ :=
  (gsAux f ε (gsFuel a0 b0 ε) (gsInit f a0 b0)).getD 0

/-- The convergence check of `bfgs_algorithm`:
`pow(sum(nabla[i]**2), 0.5) < epsilon`.  Over the reals,
`Real.sqrt s < ε ↔ 0 < ε ∧ s < ε ^ 2` for `s ≥ 0`, which is the decidable
form used here (see `gradConv_models_sqrt`). -/
def gradConv (n : ℕ) (ε : ℚ) (nabla : List ℚ) : Bool :=
  decide (0 < ε ∧ ((List.range n).map fun i => nabla.getD i 0 ^ 2).sum < ε ^ 2)

/-- Computable matrix inverse over `ℚ` (the embedding of `numpy`'s
`B0 ** -1`): `A⁻¹ = det A⁻¹ • adjugate A` for invertible `A`. -/
def matInv {n : ℕ} (M : Matrix (Fin n) (Fin n) ℚ) : Matrix (Fin n) (Fin n) ℚ :=
  (M.det)⁻¹ • M.adjugate

/-- The Hessian-approximation update exactly as the source writes it:
`B1 = B0 + (yk ykᵀ)/(ykᵀ dk) + (B0 dk dkᵀ B0)/(dkᵀ B0 dk)` —
note the second term is ADDED in the source. -/
def bfgsUpdate {n : ℕ} (B0 : Matrix (Fin n) (Fin n) ℚ) (y d : Fin n → ℚ) :
    Matrix (Fin n) (Fin n) ℚ :=
  B0 + (Matrix.dotProduct y d)⁻¹ • Matrix.vecMulVec y y
     + (Matrix.dotProduct d (B0.mulVec d))⁻¹ • (B0 * Matrix.vecMulVec d d * B0)

/-- Modelled from the spec: the update the specification states,
`B1 = B0 + (y·yᵀ)/(yᵀ·d) - (B0·d·dᵀ·B0)/(dᵀ·B0·d)` (second term
SUBTRACTED; this is the standard BFGS formula). -/
def bfgsUpdateSpec {n : ℕ} (B0 : Matrix (Fin n) (Fin n) ℚ) (y d : Fin n → ℚ) :
    Matrix (Fin n) (Fin n) ℚ :=
  B0 + (Matrix.dotProduct y d)⁻¹ • Matrix.vecMulVec y y
     - (Matrix.dotProduct d (B0.mulVec d))⁻¹ • (B0 * Matrix.vecMulVec d d * B0)

/-- The search direction `pk` of one iteration of `bfgs_algorithm`, as a
list: `pk = -B0 * g0` when `k = 0` and `pk = -(B0 ** -1) * g0` otherwise. -/
def bfgsDir (func : List ℚ → ℚ) (n : ℕ) (k : ℕ)
    (B0 : Matrix (Fin n) (Fin n) ℚ) (x0 : List ℚ) : List ℚ :=
  let nabla := pderiv func x0 dxDefault
  let g0 : Fin n → ℚ := fun i => nabla.getD i.val 0
  let Bact := if k = 0 then B0 else matInv B0
  (List.finRange n).map fun i => -(Bact.mulVec g0 i)

/-- The step length `lambda_k`: a golden-section line search along `pk`
over `[0, distance]` with the hard-coded tolerance `1e-6`. -/
def bfgsLam (func : List ℚ → ℚ) (n : ℕ) (dist : ℚ) (k : ℕ)
    (B0 : Matrix (Fin n) (Fin n) ℚ) (x0 : List ℚ) : ℚ :=
  let pk := bfgsDir func n k B0 x0
  golden_section_for_line_search
    (fun x => func ((List.range n).map fun j => x0.getD j 0 + x * pk.getD j 0))
    0 dist (1 / 1000000)

/-- The next iterate `x1 = [x0[j] + lk * pk[j] for j in range(n)]`. -/
def bfgsX1 (func : List ℚ → ℚ) (n : ℕ) (dist : ℚ) (k : ℕ)
    (B0 : Matrix (Fin n) (Fin n) ℚ) (x0 : List ℚ) : List ℚ :=
  let pk := bfgsDir func n k B0 x0
  let lk := bfgsLam func n dist k B0 x0
  (List.range n).map fun j => x0.getD j 0 + lk * pk.getD j 0

/-- The updated matrix `B1` of one iteration, via `bfgsUpdate` applied to
`yk = g1 - g0` and `dk = lk * pk`. -/
def bfgsB1 (func : List ℚ → ℚ) (n : ℕ) (dist : ℚ) (k : ℕ)
    (B0 : Matrix (Fin n) (Fin n) ℚ) (x0 : List ℚ) : Matrix (Fin n) (Fin n) ℚ :=
  let pk := bfgsDir func n k B0 x0
  let lk := bfgsLam func n dist k B0 x0
  let x1 := bfgsX1 func n dist k B0 x0
  let g0 : Fin n → ℚ := fun i => (pderiv func x0 dxDefault).getD i.val 0
  let g1 : Fin n → ℚ := fun i => (pderiv func x1 dxDefault).getD i.val 0
  bfgsUpdate B0 (fun i => g1 i - g0 i) (fun j => lk * pk.getD j.val 0)

/-- Embedding of the `for k in range(maximum)` loop of `bfgs_algorithm`.
`rem` is the number of remaining iterations, `k` the current index (the
source branches on `k == 0` when computing `pk`).  The second component
counts how many times `golden_section_for_line_search` was invoked.
Falling off the loop returns `none` — the Python function has no `return`
after the loop, so it returns `None` there. -/
def bfgsLoop (func : List ℚ → ℚ) (n : ℕ) (ε dist : ℚ) :
    ℕ → ℕ → Matrix (Fin n) (Fin n) ℚ → List ℚ → Option (List ℚ) × ℕ
  | 0, _, _, _ => (none, 0)
  | rem + 1, k, B0, x0 =>
    if gradConv n ε (pderiv func x0 dxDefault) then (some x0, 0)
    else
      let x1 := bfgsX1 func n dist k B0 x0
      if gradConv n ε (pderiv func x1 dxDefault) then (some x1, 1)
      else
        let res := bfgsLoop func n ε dist rem (k + 1) (bfgsB1 func n dist k B0 x0) x1
        (res.1, res.2 + 1)

/-- Embedding of `bfgs_algorithm(func, n_features, epsilon, distance, maximum)`:
start from `B0 = I`, `x0 = [0] * n_features`, iterate at most `maximum` times. -/
def bfgs_algorithm (func : List ℚ → ℚ) (n : ℕ) (ε dist : ℚ) (maximum : ℕ) :
    Option (List ℚ) :=
  (bfgsLoop func n ε dist maximum 0 1 (List.replicate n 0)).1

/-- The affine test family of C6: `f x = Σ aᵢ xᵢ + b`. -/
def affineF (a : List ℚ) (b : ℚ) (xs : List ℚ) : ℚ :=
  (List.zipWith (fun u v => u * v) a xs).sum + b

/-- The quadratic test family of C7: `f x = xᵀ A x` with an `n × n`
coefficient table `A`. -/
def quadF (n : ℕ) (A : ℕ → ℕ → ℚ) (xs : List ℚ) : ℚ :=
  ∑ i ∈ Finset.range n, ∑ j ∈ Finset.range n, A i j * xs.getD i 0 * xs.getD j 0

/-- Unimodality of `f` on `[a, b]` with (strict) minimiser `c`:
strictly decreasing before `c`, strictly increasing after. -/
def UnimodalOn (f : ℚ → ℚ) (a b c : ℚ) : Prop :=
  a ≤ c ∧ c ≤ b ∧
    (∀ x y, a ≤ x → x < y → y ≤ c → f y < f x) ∧
    (∀ x y, c ≤ x → x < y → y ≤ b → f x < f y)

/-- The adversarial objective of the C4 counterexample: value `0` at the
initial right probe `309/500`, value `1` everywhere else. -/
def gsAdv : ℚ → ℚ := fun x => if x = 309 / 500 then 0 else 1

/-- Invariant of the line-search loop: one of the two probes sits at its
canonical `0.382` offset (the other was inherited from the previous round),
and both probes lie inside the bracket `[a0, b0]`. -/
def GSInv (s : GS) : Prop :=
  (s.a1 = s.a0 + (191 / 500) * (s.b0 - s.a0) ∨
      s.b1 = s.b0 - (191 / 500) * (s.b0 - s.a0)) ∧
    s.a0 ≤ s.a1 ∧ s.a1 ≤ s.b0 ∧ s.a0 ≤ s.b1 ∧ s.b1 ≤ s.b0

/-- Invariant of the run on a constant objective `fun _ => c`: both cached
values equal `c`, so the `fa ≤ fb` branch is always taken, and the state
stays in the two-point cycle `v ∈ {309/500, 191/309}` with `W > 0`. -/
def GSConstInv (c : ℚ) (s : GS) : Prop :=
  s.fa = c ∧ s.fb = c ∧
    ∃ W v : ℚ, 0 < W ∧ (v = 309 / 500 ∨ v = 191 / 309) ∧
      s.a1 = s.a0 + (191 / 500) * W ∧ s.b1 = s.a0 + v * W ∧ s.b0 = s.a0 + W

/-- Invariant of the run on an objective unimodal on `[A, B]` with
minimiser `c`: the loop invariant, the bracket stays inside `[A, B]`,
the minimiser stays inside the bracket, and the cached values are honest. -/
def GSUni (f : ℚ → ℚ) (A B c : ℚ) (s : GS) : Prop :=
  GSInv s ∧ A ≤ s.a0 ∧ s.b0 ≤ B ∧ s.a0 ≤ c ∧ c ≤ s.b0 ∧
    s.fa = f s.a1 ∧ s.fb = f s.b1

/-- A tiny heap of Python list objects, for the frame claim C8: addresses
index allocated lists; `list(arr)` allocates a fresh cell, `arr2[i] = x`
writes in place. -/
structure Heap where
  cells : List (List ℚ)

/-- Dereference an address. -/
def Heap.read (h : Heap) (a : ℕ) : List ℚ := h.cells.getD a []

/-- `list(v)`: allocate a fresh cell holding `v`, returning its address. -/
def Heap.alloc (h : Heap) (v : List ℚ) : ℕ × Heap :=
  (h.cells.length, ⟨h.cells ++ [v]⟩)

/-- In-place update of the cell at address `a`. -/
def Heap.write (h : Heap) (a : ℕ) (v : List ℚ) : Heap := ⟨h.cells.set a v⟩

/-- One call of the closure `f` inside `partial_derivative` (and of `f1`
inside `get_hessian`): `arr2 = list(arr)` (fresh copy), `arr2[i] = x`
(write to the copy), then `func(arr2)`. -/
def pdCall (func : List ℚ → ℚ) (src i : ℕ) (x : ℚ) (h : Heap) : ℚ × Heap :=
  let p := h.alloc (h.read src)
  let h2 := p.2.write p.1 ((p.2.read p.1).set i x)
  (func (h2.read p.1), h2)

/-- One gradient entry: `derivative(f, arr[i], dx)` evaluates the closure
at `arr[i] + dx` and `arr[i] - dx`; each evaluation takes its own copy. -/
def pdEntry (func : List ℚ → ℚ) (src i : ℕ) (dx : ℚ) (h : Heap) : ℚ × Heap :=
  let xi := (h.read src).getD i 0
  let r1 := pdCall func src i (xi + dx) h
  let r2 := pdCall func src i (xi - dx) r1.2
  ((r1.1 - r2.1) / (2 * dx), r2.2)

/-- The `for i in range(n_features)` loop of `partial_derivative`, heap
threaded through. -/
def pdHeapAux (func : List ℚ → ℚ) (src : ℕ) (dx : ℚ) :
    List ℕ → Heap → List ℚ × Heap
  | [], h => ([], h)
  | i :: is, h =>
    let r := pdEntry func src i dx h
    let rest := pdHeapAux func src dx is r.2
    (r.1 :: rest.1, rest.2)

/-- Heap-level embedding of `partial_derivative(func, arr, dx)` where
`arr` lives at address `src`. -/
def partial_derivative_heap (func : List ℚ → ℚ) (src : ℕ) (dx : ℚ)
    (h : Heap) : List ℚ × Heap :=
  pdHeapAux func src dx (List.range (h.read src).length) h

/-- The inner closure `f2` of `get_hessian`: `x1 = list(x0)`, `x1[j] = xj`,
then `derivative(f1, x1[i], dx, args=(x1,))` — two `f1` calls, each of
which copies `x1` afresh (`x2 = list(x1)`) and writes slot `i`. -/
def hessF2 (func : List ℚ → ℚ) (x0a i j : ℕ) (xj dx : ℚ) (h : Heap) :
    ℚ × Heap :=
  let p := h.alloc (h.read x0a)
  let h2 := p.2.write p.1 ((p.2.read p.1).set j xj)
  let c := (h2.read p.1).getD i 0
  let r1 := pdCall func p.1 i (c + dx) h2
  let r2 := pdCall func p.1 i (c - dx) r1.2
  ((r1.1 - r2.1) / (2 * dx), r2.2)

/-- One Hessian entry: `derivative(f2, x0[j], dx)`. -/
def hessEntry (func : List ℚ → ℚ) (x0a i j : ℕ) (dx : ℚ) (h : Heap) :
    ℚ × Heap :=
  let cj := (h.read x0a).getD j 0
  let r1 := hessF2 func x0a i j (cj + dx) dx h
  let r2 := hessF2 func x0a i j (cj - dx) dx r1.2
  ((r1.1 - r2.1) / (2 * dx), r2.2)

/-- The inner `for j` loop of `get_hessian`. -/
def hessRowAux (func : List ℚ → ℚ) (x0a i : ℕ) (dx : ℚ) :
    List ℕ → Heap → List ℚ × Heap
  | [], h => ([], h)
  | j :: js, h =>
    let r := hessEntry func x0a i j dx h
    let rest := hessRowAux func x0a i dx js r.2
    (r.1 :: rest.1, rest.2)

/-- The outer `for i` loop of `get_hessian`. -/
def hessAux (func : List ℚ → ℚ) (x0a : ℕ) (dx : ℚ) :
    List ℕ → Heap → List (List ℚ) × Heap
  | [], h => ([], h)
  | i :: is, h =>
    let r := hessRowAux func x0a i dx (List.range (h.read x0a).length) h
    let rest := hessAux func x0a dx is r.2
    (r.1 :: rest.1, rest.2)

/-- Heap-level embedding of `get_hessian(func, x0, dx)` where `x0` lives
at address `x0a`. -/
def get_hessian_heap (func : List ℚ → ℚ) (x0a : ℕ) (dx : ℚ) (h : Heap) :
    List (List ℚ) × Heap :=
  hessAux func x0a dx (List.range (h.read x0a).length) h

/-- `HeapExt m h h2`: `h2` extends `h` without touching the first `m`
cells — all writes went to cells allocated at addresses `≥ m`. -/
def HeapExt (m : ℕ) (h h2 : Heap) : Prop :=
  m ≤ h2.cells.length ∧ ∀ a, a < m → h2.read a = h.read a

/-- The decidable form of the convergence check agrees with the source's
`sqrt (Σ nablaᵢ²) < ε` over the reals. -/
theorem gradConv_models_sqrt (s ε : ℝ) :
    Real.sqrt s < ε ↔ 0 < ε ∧ s < ε ^ 2 := by
  constructor
  · intro h
    have hε : 0 < ε := lt_of_le_of_lt (Real.sqrt_nonneg s) h
    exact ⟨hε, (Real.sqrt_lt' hε).mp h⟩
  · rintro ⟨hε, h⟩
    exact (Real.sqrt_lt' hε).mpr h

/-- If the convergence check fires at the current point, the loop returns it
at once with no line-search invocation. -/
theorem bfgsLoop_first (func : List ℚ → ℚ) (n : ℕ) (ε dist : ℚ)
    (rem k : ℕ) (B0 : Matrix (Fin n) (Fin n) ℚ) (x0 : List ℚ)
    (h : gradConv n ε (pderiv func x0 dxDefault) = true) :
    bfgsLoop func n ε dist (rem + 1) k B0 x0 = (some x0, 0) := by
  simp [bfgsLoop, h]

/-- Any point the loop ever returns passed the gradient convergence check. -/
theorem bfgsLoop_some (func : List ℚ → ℚ) (n : ℕ) (ε dist : ℚ) :
    ∀ (rem k : ℕ) (B0 : Matrix (Fin n) (Fin n) ℚ) (x0 x : List ℚ),
      (bfgsLoop func n ε dist rem k B0 x0).1 = some x →
      gradConv n ε (pderiv func x dxDefault) = true := by
  intro rem
  induction rem with
  | zero =>
    intro k B0 x0 x h
    simp [bfgsLoop] at h
  | succ rem ih =>
    intro k B0 x0 x h
    simp only [bfgsLoop] at h
    split_ifs at h with h1 h2
    · simp only [Option.some.injEq] at h
      rw [← h]; exact h1
    · simp only [Option.some.injEq] at h
      rw [← h]; exact h2
    · exact ih (k + 1) (bfgsB1 func n dist k B0 x0) (bfgsX1 func n dist k B0 x0) x h

/-- Claim C1 (code bug): at the concrete update input `B0 = [[1]]`,
`y = (1)`, `d = (1)` the source's update yields `[[3]]` because it ADDS the
second rank-one correction, while the update stated by the specification
(standard BFGS, second term subtracted) yields `[[1]]`. -/
theorem c1_update_adds_second_term :
    bfgsUpdate (1 : Matrix (Fin 1) (Fin 1) ℚ) (fun _ => 1) (fun _ => 1) 0 0 = 3 ∧
    bfgsUpdateSpec (1 : Matrix (Fin 1) (Fin 1) ℚ) (fun _ => 1) (fun _ => 1) 0 0 = 1 := by
  constructor
  · simp [bfgsUpdate, Matrix.dotProduct, Matrix.vecMulVec,
      Matrix.mul_apply, Matrix.mulVec, Matrix.one_apply]
    norm_num
  · simp [bfgsUpdateSpec, Matrix.dotProduct, Matrix.vecMulVec,
      Matrix.mul_apply, Matrix.mulVec, Matrix.one_apply]

/-- Claim C2 (counterexample): with `maximum = 0` the loop body never runs,
no convergence check fires, and `bfgs_algorithm` returns `None` — not the
last computed iterate `[0]` the claim promises. -/
theorem c2_counterexample :
    bfgs_algorithm (fun xs => xs.getD 0 0) 1 (1 / 1000000) 3 0 = none := rfl

/-- Claim C2 (amended): a non-`None` result of `bfgs_algorithm` always
satisfies the gradient convergence check; when `maximum` is exhausted
without a check firing the function returns `None` (Python's implicit
return), not the last computed iterate. -/
theorem c2_exhaustion_returns_none (func : List ℚ → ℚ) (n : ℕ) (ε dist : ℚ)
    (m : ℕ) (x : List ℚ) (h : bfgs_algorithm func n ε dist m = some x) :
    gradConv n ε (pderiv func x dxDefault) = true :=
  bfgsLoop_some func n ε dist m 0 1 (List.replicate n 0) x h

/-- Witness for C2's amended theorem: a run that does return a point, whose
check then holds. -/
theorem c2_witness :
    gradConv 1 1 (pderiv (fun _ => (0 : ℚ)) [0] dxDefault) = true :=
  c2_exhaustion_returns_none (fun _ => (0 : ℚ)) 1 1 3 1 [0] (by with_unfolding_all decide)

/-- Claim C5: if the convergence check already holds at the origin, the
algorithm returns the origin on the first iteration and the line search is
invoked zero times (the invocation counter of `bfgsLoop` is `0`). -/
theorem c5_immediate_return (func : List ℚ → ℚ) (n : ℕ) (ε dist : ℚ) (m : ℕ)
    (_hn : 1 ≤ n) (hm : 1 ≤ m)
    (h : gradConv n ε (pderiv func (List.replicate n 0) dxDefault) = true) :
    bfgsLoop func n ε dist m 0 1 (List.replicate n 0) = (some (List.replicate n 0), 0) := by
  obtain ⟨m', rfl⟩ : ∃ m', m = m' + 1 := ⟨m - 1, by omega⟩
  exact bfgsLoop_first func n ε dist m' 0 1 (List.replicate n 0) h

/-- Witness for C5 at a concrete convergent-at-origin objective. -/
theorem c5_witness :
    bfgsLoop (fun _ => (0 : ℚ)) 1 1 3 1 0 1 (List.replicate 1 0) =
      (some (List.replicate 1 0), 0) :=
  c5_immediate_return (fun _ => (0 : ℚ)) 1 1 3 1 (by norm_num) (by norm_num)
    (by with_unfolding_all decide)

/-- Claim C9: `bfgs_algorithm` is deterministic — two runs over objectives
with identical observable behaviour and identical parameters return the
same result (there is no randomness or hidden state in the embedding). -/
theorem c9_deterministic (f g : List ℚ → ℚ) (n : ℕ) (ε dist : ℚ) (m : ℕ)
    (h : ∀ xs, f xs = g xs) :
    bfgs_algorithm f n ε dist m = bfgs_algorithm g n ε dist m := by
  rw [funext h]

/-- Witness for C9: two syntactically different but extensionally equal
objectives give equal runs. -/
theorem c9_witness :
    bfgs_algorithm (fun xs => xs.getD 0 0 * 1) 1 1 3 1 =
      bfgs_algorithm (fun xs => xs.getD 0 0) 1 1 3 1 :=
  c9_deterministic _ _ 1 1 3 1 (fun xs => by ring)

/-- Claim C10: with `n_features = 0` the gradient is the empty list of norm
`0`, the first convergence check fires, and the algorithm returns `[]` on
the first iteration; the run never evaluates the objective — as witnessed
by the result being identical for every pair of objectives `f`, `g`. -/
theorem c10_zero_features (f g : List ℚ → ℚ) (ε dist : ℚ) (m : ℕ)
    (hε : 0 < ε) (hm : 1 ≤ m) :
    bfgs_algorithm f 0 ε dist m = some [] ∧
    bfgs_algorithm f 0 ε dist m = bfgs_algorithm g 0 ε dist m := by
  obtain ⟨m', rfl⟩ : ∃ m', m = m' + 1 := ⟨m - 1, by omega⟩
  have h : ∀ h' : List ℚ → ℚ,
      gradConv 0 ε (pderiv h' (List.replicate 0 0) dxDefault) = true := by
    intro h'
    simp [gradConv, pderiv]
    exact ⟨hε, by positivity⟩
  constructor
  · unfold bfgs_algorithm
    rw [bfgsLoop_first f 0 ε dist m' 0 1 (List.replicate 0 0) (h f)]
    simp
  · unfold bfgs_algorithm
    rw [bfgsLoop_first f 0 ε dist m' 0 1 (List.replicate 0 0) (h f),
      bfgsLoop_first g 0 ε dist m' 0 1 (List.replicate 0 0) (h g)]

/-- Witness for C10 at concrete distinct objectives. -/
theorem c10_witness :
    bfgs_algorithm (fun _ => (1 : ℚ)) 0 1 3 5 = some [] ∧
    bfgs_algorithm (fun _ => (1 : ℚ)) 0 1 3 5 = bfgs_algorithm (fun _ => (2 : ℚ)) 0 1 3 5 :=
  c10_zero_features (fun _ => (1 : ℚ)) (fun _ => (2 : ℚ)) 1 3 5 (by norm_num) (by norm_num)

/-- The initial state satisfies the loop invariant whenever `a0 ≤ b0`. -/
theorem gsInit_inv (f : ℚ → ℚ) (a0 b0 : ℚ) (h : a0 ≤ b0) :
    GSInv (gsInit f a0 b0) := by
  refine ⟨Or.inl rfl, ?_, ?_, ?_, ?_⟩ <;> simp [gsInit] <;> linarith

/-- One step of the loop preserves the invariant, provided the guard held
(`a1 < b1`). -/
theorem gsStep_inv (f : ℚ → ℚ) (s : GS) (h : GSInv s) (hg : s.a1 < s.b1) :
    GSInv (gsStep f s) := by
  obtain ⟨hform, h1, h2, h3, h4⟩ := h
  unfold gsStep
  split_ifs with hc
  · exact ⟨Or.inl rfl, by dsimp; linarith, by dsimp; linarith, by dsimp; linarith,
      by dsimp; linarith⟩
  · exact ⟨Or.inr rfl, by dsimp; linarith, by dsimp; linarith, by dsimp; linarith,
      by dsimp; linarith⟩

/-- Two consecutive loop steps shrink the outer bracket width by at least
the factor `309/500`. -/
theorem gsStep2_width (f : ℚ → ℚ) (s : GS) (h : GSInv s) (hg1 : s.a1 < s.b1)
    (_hg2 : (gsStep f s).a1 < (gsStep f s).b1) :
    (gsStep f (gsStep f s)).b0 - (gsStep f (gsStep f s)).a0 ≤
      (309 / 500) * (s.b0 - s.a0) := by
  obtain ⟨hform, h1, h2, h3, h4⟩ := h
  rcases le_or_lt s.fa s.fb with hc1 | hc1
  · rcases le_or_lt (f (s.a0 + (191 / 500) * (s.b1 - s.a0))) s.fa with hc2 | hc2
    · have w : (gsStep f (gsStep f s)).b0 - (gsStep f (gsStep f s)).a0 =
          s.a1 - s.a0 := by
        simp [gsStep, hc1, hc2]
      rw [w]
      rcases hform with hA | hB <;> linarith
    · have hc2' : ¬ f (s.a0 + (191 / 500) * (s.b1 - s.a0)) ≤ s.fa := not_le.mpr hc2
      have w : (gsStep f (gsStep f s)).b0 - (gsStep f (gsStep f s)).a0 =
          s.b1 - (s.a0 + (191 / 500) * (s.b1 - s.a0)) := by
        simp [gsStep, hc1, hc2']
      rw [w]; linarith
  · have hc1' : ¬ s.fa ≤ s.fb := not_le.mpr hc1
    rcases le_or_lt s.fb (f (s.b0 - (191 / 500) * (s.b0 - s.a1))) with hc2 | hc2
    · have w : (gsStep f (gsStep f s)).b0 - (gsStep f (gsStep f s)).a0 =
          s.b0 - (191 / 500) * (s.b0 - s.a1) - s.a1 := by
        simp [gsStep, hc1', hc2]
      rw [w]; linarith
    · have hc2' : ¬ s.fb ≤ f (s.b0 - (191 / 500) * (s.b0 - s.a1)) := not_le.mpr hc2
      have w : (gsStep f (gsStep f s)).b0 - (gsStep f (gsStep f s)).a0 =
          s.b0 - s.b1 := by
        simp [gsStep, hc1', hc2']
      rw [w]
      rcases hform with hA | hB <;> linarith

/-- After `2 k + 1` guard checks the loop has exited, provided
`(309/500)^k` times the initial bracket width is below `ε`. -/
theorem gsAux_term (f : ℚ → ℚ) (ε : ℚ) (hε : 0 < ε) :
    ∀ (k : ℕ) (s : GS), GSInv s → (309 / 500 : ℚ) ^ k * (s.b0 - s.a0) ≤ ε →
      (gsAux f ε (2 * k + 1) s).isSome = true := by
  intro k
  induction k with
  | zero =>
    intro s hinv hb
    simp only [pow_zero, one_mul] at hb
    obtain ⟨-, h1, -, -, h4⟩ := hinv
    have hg : ¬ ε < s.b1 - s.a1 := not_lt.mpr (by linarith)
    simp [gsAux, hg]
  | succ k ih =>
    intro s hinv hb
    have e : 2 * (k + 1) + 1 = 2 * k + 1 + 1 + 1 := by ring
    rw [e]
    by_cases hg1 : ε < s.b1 - s.a1
    · have u1 : gsAux f ε (2 * k + 1 + 1 + 1) s =
          gsAux f ε (2 * k + 1 + 1) (gsStep f s) := by
        simp [gsAux, hg1]
      rw [u1]
      by_cases hg2 : ε < (gsStep f s).b1 - (gsStep f s).a1
      · have u2 : gsAux f ε (2 * k + 1 + 1) (gsStep f s) =
            gsAux f ε (2 * k + 1) (gsStep f (gsStep f s)) := by
          simp [gsAux, hg2]
        rw [u2]
        have hinv1 := gsStep_inv f s hinv (by linarith)
        have hinv2 := gsStep_inv f (gsStep f s) hinv1 (by linarith)
        apply ih _ hinv2
        calc (309 / 500 : ℚ) ^ k *
              ((gsStep f (gsStep f s)).b0 - (gsStep f (gsStep f s)).a0)
            ≤ (309 / 500 : ℚ) ^ k * ((309 / 500) * (s.b0 - s.a0)) := by
              apply mul_le_mul_of_nonneg_left
                (gsStep2_width f s ⟨hinv.1, hinv.2⟩ (by linarith) (by linarith))
                (pow_nonneg (by norm_num) k)
          _ = (309 / 500 : ℚ) ^ (k + 1) * (s.b0 - s.a0) := by ring
          _ ≤ ε := hb
      · simp [gsAux, hg1, hg2]
    · simp [gsAux, hg1]

/-- The fuel chosen by `gsFuel` satisfies the geometric bound needed by
`gsAux_term`. -/
theorem gsFuel_pow (a0 b0 ε : ℚ) (hε : 0 < ε) :
    (309 / 500 : ℚ) ^ (2 * Int.toNat ⌈(b0 - a0) / ε⌉) * (b0 - a0) ≤ ε := by
  set m := Int.toNat ⌈(b0 - a0) / ε⌉ with hm
  rcases le_or_lt (b0 - a0) 0 with hW | hW
  · have hp : (0 : ℚ) ≤ (309 / 500 : ℚ) ^ (2 * m) := by positivity
    nlinarith
  · have hx : (b0 - a0) / ε ≤ (m : ℚ) := by
      have h1 : (b0 - a0) / ε ≤ (⌈(b0 - a0) / ε⌉ : ℚ) := Int.le_ceil _
      have h0 : (0 : ℤ) ≤ ⌈(b0 - a0) / ε⌉ :=
        Int.ceil_nonneg (le_of_lt (div_pos hW hε))
      have h2 : ((⌈(b0 - a0) / ε⌉ : ℤ) : ℚ) = (m : ℚ) := by
        rw [hm]
        exact_mod_cast (Int.toNat_of_nonneg h0).symm
      linarith
    have hm2 : (m : ℚ) < 2 ^ m := by exact_mod_cast Nat.lt_two_pow m
    have key : (309 / 500 : ℚ) ^ (2 * m) ≤ (1 / 2) ^ m := by
      have e : (309 / 500 : ℚ) ^ (2 * m) = ((309 / 500 : ℚ) ^ 2) ^ m := by
        rw [← pow_mul]
      rw [e]
      exact pow_le_pow_left₀ (by positivity) (by norm_num) m
    have hWe : b0 - a0 ≤ ε * 2 ^ m := by
      have hlt : (b0 - a0) / ε < 2 ^ m := lt_of_le_of_lt hx hm2
      have e : b0 - a0 = ε * ((b0 - a0) / ε) := by field_simp
      rw [e]
      have h2m : (0 : ℚ) < 2 ^ m := by positivity
      nlinarith
    calc (309 / 500 : ℚ) ^ (2 * m) * (b0 - a0)
        ≤ (1 / 2 : ℚ) ^ m * (b0 - a0) :=
          mul_le_mul_of_nonneg_right key (le_of_lt hW)
      _ ≤ (1 / 2 : ℚ) ^ m * (ε * 2 ^ m) :=
          mul_le_mul_of_nonneg_left hWe (by positivity)
      _ = ε * ((1 / 2 : ℚ) * 2) ^ m := by rw [mul_pow]; ring
      _ = ε := by norm_num

/-- On a constant objective the invariant forces a strictly positive probe
width, so the guard is always taken when `ε ≤ 0`. -/
theorem gsConst_width (c : ℚ) (s : GS) (h : GSConstInv c s) :
    0 < s.b1 - s.a1 := by
  obtain ⟨-, -, W, v, hW, hv, ha1, hb1, -⟩ := h
  rcases hv with rfl | rfl <;> rw [ha1, hb1] <;> nlinarith

/-- On a constant objective, one loop step preserves the two-point cycle
invariant. -/
theorem gsConst_step (c : ℚ) (s : GS) (h : GSConstInv c s) :
    GSConstInv c (gsStep (fun _ => c) s) := by
  obtain ⟨hfa, hfb, W, v, hW, hv, ha1, hb1, hb0⟩ := h
  have hc : s.fa ≤ s.fb := by rw [hfa, hfb]
  unfold gsStep
  rw [if_pos hc]
  rcases hv with rfl | rfl
  · exact ⟨rfl, hfa, (309 / 500) * W, 191 / 309, by positivity, Or.inr rfl,
      by dsimp only; rw [hb1]; ring, by dsimp only; rw [ha1]; ring, hb1⟩
  · exact ⟨rfl, hfa, (191 / 309) * W, 309 / 500, by positivity, Or.inl rfl,
      by dsimp only; rw [hb1]; ring, by dsimp only; rw [ha1]; ring, hb1⟩

/-- On a constant objective with `ε ≤ 0` the loop never exits: with any
fuel, `gsAux` reports that it is still running. -/
theorem gsConst_none (c ε : ℚ) (hε : ε ≤ 0) :
    ∀ (fuel : ℕ) (s : GS), GSConstInv c s →
      gsAux (fun _ => c) ε fuel s = none := by
  intro fuel
  induction fuel with
  | zero => intro s _; rfl
  | succ n ih =>
    intro s h
    have hg : ε < s.b1 - s.a1 := lt_of_le_of_lt hε (gsConst_width c s h)
    simp only [gsAux, if_pos hg]
    exact ih _ (gsConst_step c s h)

/-- The initial state on a constant objective satisfies the cycle
invariant whenever `a0 < b0`. -/
theorem gsConst_init (c a0 b0 : ℚ) (h : a0 < b0) :
    GSConstInv c (gsInit (fun _ => c) a0 b0) := by
  refine ⟨rfl, rfl, b0 - a0, 309 / 500, by linarith, Or.inl rfl, rfl, ?_, ?_⟩ <;>
    · dsimp [gsInit]; ring

/-- Claim C4 (amended): on a constant objective (every comparison takes the
`fa ≤ fb` branch) the loop runs forever when `ε ≤ 0` — the probe width
stays strictly positive; and for every objective and every `ε > 0` the
loop terminates within the explicitly computed fuel `gsFuel a0 b0 ε`. -/
theorem c4_termination_dichotomy :
    (∀ (c a0 b0 ε : ℚ), ε ≤ 0 → a0 < b0 →
        ∀ fuel, gsAux (fun _ => c) ε fuel (gsInit (fun _ => c) a0 b0) = none) ∧
    (∀ (f : ℚ → ℚ) (a0 b0 ε : ℚ), 0 < ε →
        (gsAux f ε (gsFuel a0 b0 ε) (gsInit f a0 b0)).isSome = true) := by
  constructor
  · intro c a0 b0 ε hε hab fuel
    exact gsConst_none c ε hε fuel _ (gsConst_init c a0 b0 hab)
  · intro f a0 b0 ε hε
    rcases le_or_lt a0 b0 with hab | hab
    · have hw : (gsInit f a0 b0).b0 - (gsInit f a0 b0).a0 = b0 - a0 := by
        simp [gsInit]
      have h := gsAux_term f ε hε (2 * Int.toNat ⌈(b0 - a0) / ε⌉)
        (gsInit f a0 b0) (gsInit_inv f a0 b0 hab)
        (by rw [hw]; exact gsFuel_pow a0 b0 ε hε)
      have e : gsFuel a0 b0 ε = 2 * (2 * Int.toNat ⌈(b0 - a0) / ε⌉) + 1 := by
        unfold gsFuel; ring
      rw [e]
      exact h
    · have hg : ¬ ε < (gsInit f a0 b0).b1 - (gsInit f a0 b0).a1 := by
        simp only [gsInit]
        intro hlt
        nlinarith
      have e : gsFuel a0 b0 ε = 4 * Int.toNat ⌈(b0 - a0) / ε⌉ + 1 := rfl
      rw [e]
      simp [gsAux, hg]

/-- Witness for C4's amended theorem: both conjuncts at concrete inputs
(constant objective on `[0, 1]` with `ε = 0` reported still running with
fuel `3`; any objective with `ε = 1` finishing inside the stated fuel). -/
theorem c4_witness :
    gsAux (fun _ => (0 : ℚ)) 0 3 (gsInit (fun _ => (0 : ℚ)) 0 1) = none ∧
    (gsAux (fun _ => (0 : ℚ)) 1 (gsFuel 0 1 1) (gsInit (fun _ => (0 : ℚ)) 0 1)).isSome
      = true :=
  ⟨c4_termination_dichotomy.1 0 0 1 0 le_rfl (by norm_num) 3,
   c4_termination_dichotomy.2 (fun _ => (0 : ℚ)) 0 1 1 (by norm_num)⟩

set_option maxRecDepth 100000 in
/-- Claim C4 (counterexample): with `a0 = 0 < 1 = b0` and `ε = 0 ≤ 0`,
the loop on the objective `gsAdv` terminates — after 18 iterations the
probe width becomes negative because the `0.382` probes are not exact
golden-ratio points, so the claimed universal non-termination for
`ε ≤ 0` is false. -/
theorem c4_counterexample :
    (gsAux gsAdv 0 25 (gsInit gsAdv 0 1)).isSome = true := by
  with_unfolding_all decide

/-- On a unimodal objective, one guarded loop step preserves the bracket
invariant: the minimiser stays inside the shrinking outer bracket. -/
theorem gsUni_step (f : ℚ → ℚ) (A B c : ℚ) (hu : UnimodalOn f A B c)
    (s : GS) (h : GSUni f A B c s) (hg : s.a1 < s.b1) :
    GSUni f A B c (gsStep f s) := by
  obtain ⟨hinv, hA, hB, hc1, hc2, hfa, hfb⟩ := h
  obtain ⟨hAc, hcB, hdec, hinc⟩ := hu
  obtain ⟨hform, h1, h2, h3, h4⟩ := hinv
  have hinv' := gsStep_inv f s ⟨hform, h1, h2, h3, h4⟩ hg
  by_cases hcmp : s.fa ≤ s.fb
  · have hcb1 : c ≤ s.b1 := by
      by_contra hlt
      push_neg at hlt
      have := hdec s.a1 s.b1 (by linarith) hg (by linarith)
      rw [← hfa, ← hfb] at this
      linarith
    refine ⟨hinv', ?_, ?_, ?_, ?_, ?_, ?_⟩ <;>
      simp only [gsStep, if_pos hcmp]
    · exact hA
    · linarith
    · exact hc1
    · exact hcb1
    · exact hfa
  · have hca1 : s.a1 ≤ c := by
      by_contra hlt
      push_neg at hlt
      have := hinc s.a1 s.b1 (by linarith) hg (by linarith)
      rw [← hfa, ← hfb] at this
      exact hcmp (le_of_lt this)
    refine ⟨hinv', ?_, ?_, ?_, ?_, ?_, ?_⟩ <;>
      simp only [gsStep, if_neg hcmp]
    · linarith
    · exact hB
    · exact hca1
    · linarith
    · exact hfb

/-- If the loop on a unimodal objective exits with value `r`, then `r` is
within the width of the original interval of the minimiser. -/
theorem gsUni_some (f : ℚ → ℚ) (A B c ε : ℚ) (hε : 0 < ε)
    (hu : UnimodalOn f A B c) :
    ∀ (fuel : ℕ) (s : GS) (r : ℚ), GSUni f A B c s →
      gsAux f ε fuel s = some r → |r - c| ≤ B - A := by
  intro fuel
  induction fuel with
  | zero => intro s r _ he; exact absurd he (by simp [gsAux])
  | succ n ih =>
    intro s r h he
    by_cases hg : ε < s.b1 - s.a1
    · simp only [gsAux, if_pos hg] at he
      exact ih (gsStep f s) r (gsUni_step f A B c hu s h (by linarith)) he
    · simp only [gsAux, if_neg hg, Option.some.injEq] at he
      obtain ⟨⟨hform, h1, h2, h3, h4⟩, hA, hB, hc1, hc2, -, -⟩ := h
      rw [← he, abs_sub_le_iff]
      constructor <;> linarith

/-- Claim C3 (amended): for a unimodal objective the bracket invariant
holds, so whenever the loop exits, the returned midpoint and the true
minimiser both lie in the final bracket, a subinterval of `[A, B]`; the
error is therefore at most `B - A` — but it need not be below `ε`
(see the counterexample). -/
theorem c3_bracket (f : ℚ → ℚ) (A B c ε r : ℚ) (fuel : ℕ) (hε : 0 < ε)
    (hu : UnimodalOn f A B c)
    (h : gsAux f ε fuel (gsInit f A B) = some r) : |r - c| ≤ B - A := by
  have hAc := hu.1
  have hcB := hu.2.1
  refine gsUni_some f A B c ε hε hu fuel (gsInit f A B) r
    ⟨gsInit_inv f A B (by linarith), ?_, ?_, ?_, ?_, rfl, rfl⟩ h <;>
    simp [gsInit] <;> linarith

/-- Witness for C3's amended theorem at a concrete unimodal quadratic. -/
theorem c3_witness : |(1 : ℚ) / 2 - 1 / 2| ≤ 1 - 0 := by
  refine c3_bracket (fun x => (x - 1 / 2) ^ 2) 0 1 (1 / 2) 1 (1 / 2) 1
    (by norm_num) ⟨by norm_num, by norm_num, ?_, ?_⟩ ?_
  · intro x y hx hxy hy; nlinarith
  · intro x y hx hxy hy; nlinarith
  · with_unfolding_all decide

/-- Claim C3 (counterexample): `f x = (x - 9/10)²` is unimodal on `[0, 1]`
with minimiser `9/10`, yet with `ε = 3/10` the search returns `1/2`, which
is at distance `2/5 > ε` from the minimiser: the initial probe width
`0.236` is already below `ε`, so the loop exits at the interval midpoint. -/
theorem c3_counterexample :
    UnimodalOn (fun x => (x - 9 / 10) ^ 2) 0 1 (9 / 10) ∧
    golden_section_for_line_search (fun x => (x - 9 / 10) ^ 2) 0 1 (3 / 10) = 1 / 2 ∧
    ¬ |(1 : ℚ) / 2 - 9 / 10| ≤ 3 / 10 := by
  refine ⟨⟨by norm_num, by norm_num, ?_, ?_⟩, ?_, ?_⟩
  · intro x y hx hxy hy; nlinarith
  · intro x y hx hxy hy; nlinarith
  · with_unfolding_all decide
  · with_unfolding_all decide

/-- Setting one coordinate changes a dot product `Σ aⱼ xⱼ` by the
coefficient times the coordinate change. -/
theorem zipMulSum_set : ∀ (a xs : List ℚ) (i : ℕ) (v : ℚ), i < a.length →
    i < xs.length →
    (List.zipWith (fun u w => u * w) a (xs.set i v)).sum =
      (List.zipWith (fun u w => u * w) a xs).sum + a.getD i 0 * (v - xs.getD i 0) := by
  intro a
  induction a with
  | nil => intro xs i v hi _; simp at hi
  | cons ha ta ih =>
    intro xs i v hi hx
    cases xs with
    | nil => simp at hx
    | cons hxx txx =>
      cases i with
      | zero => simp [List.set]; ring
      | succ i =>
        simp only [List.set, List.zipWith, List.sum_cons, List.getD_cons_succ]
        rw [ih txx i v (by simpa using hi) (by simpa using hx)]
        ring

/-- Claim C6: on an affine objective `f x = Σ aᵢ xᵢ + b` the
finite-difference gradient is exact: `partial_derivative` returns the
coefficient list `a` for every probe point and every `dx > 0`. -/
theorem c6_affine_gradient (a : List ℚ) (b : ℚ) (arr : List ℚ) (dx : ℚ)
    (hdx : 0 < dx) (hlen : arr.length = a.length) :
    pderiv (affineF a b) arr dx = a := by
  have hdx0 : dx ≠ 0 := ne_of_gt hdx
  apply List.ext_getElem
  · simp [pderiv, hlen]
  · intro i h1 h2
    simp only [pderiv, List.getElem_map, List.getElem_range]
    unfold affineF
    rw [zipMulSum_set a arr i _ (by omega) (by omega),
        zipMulSum_set a arr i _ (by omega) (by omega),
        List.getD_eq_getElem a 0 h2]
    field_simp
    ring

/-- Witness for C6 at a concrete affine function and probe point. -/
theorem c6_witness : pderiv (affineF [2, 3] 7) [5, 11] 1 = [2, 3] :=
  c6_affine_gradient [2, 3] 7 [5, 11] 1 (by norm_num) (by norm_num)

/-- Reading a list after setting index `i` (in range): the set value at
`i`, the old value elsewhere. -/
theorem getD_set (xs : List ℚ) (i : ℕ) (v : ℚ) (k : ℕ) (hi : i < xs.length) :
    (xs.set i v).getD k 0 = if k = i then v else xs.getD k 0 := by
  induction xs generalizing i k with
  | nil => simp at hi
  | cons hx tx ih =>
    cases i with
    | zero =>
      cases k with
      | zero => simp
      | succ k => simp [List.set]
    | succ i =>
      cases k with
      | zero => simp [List.set]
      | succ k =>
        simp only [List.set, List.getD_cons_succ]
        rw [ih i k (by simpa using hi)]
        simp [Nat.succ_inj]

/-- Setting one coordinate shifts a linear form `Σ Bₗ xₗ` by `B j` times
the coordinate change. -/
theorem linSum_set (n : ℕ) (B : ℕ → ℚ) (xs : List ℚ) (j : ℕ) (t : ℚ)
    (hj : j < n) (hlen : xs.length = n) :
    ∑ l ∈ Finset.range n, B l * (xs.set j t).getD l 0 =
      (∑ l ∈ Finset.range n, B l * xs.getD l 0) + B j * (t - xs.getD j 0) := by
  have hjN : j ∈ Finset.range n := Finset.mem_range.mpr hj
  have step : ∀ l ∈ Finset.range n,
      B l * (xs.set j t).getD l 0 =
        B l * xs.getD l 0 + (if l = j then B l * (t - xs.getD j 0) else 0) := by
    intro l _
    rw [getD_set xs j t l (by omega)]
    by_cases h : l = j
    · simp [h]; ring
    · simp [h]
  rw [Finset.sum_congr rfl step, Finset.sum_add_distrib,
    Finset.sum_ite_eq' (Finset.range n) j fun l => B l * (t - xs.getD j 0)]
  simp [hjN]

/-- Updating coordinate `i` of the argument changes the quadratic form
`x ↦ Σₖ Σₗ A k l xₖ xₗ` by the row/column linear forms plus a square
term — the exact second-order Taylor expansion. -/
theorem quadF_set (n : ℕ) (A : ℕ → ℕ → ℚ) (xs : List ℚ) (i : ℕ) (v : ℚ)
    (hi : i < n) (hlen : xs.length = n) :
    quadF n A (xs.set i v) =
      quadF n A xs
        + (v - xs.getD i 0) *
            ((∑ j ∈ Finset.range n, A i j * xs.getD j 0) +
              ∑ j ∈ Finset.range n, A j i * xs.getD j 0)
        + (v - xs.getD i 0) ^ 2 * A i i := by
  have hiN : i ∈ Finset.range n := Finset.mem_range.mpr hi
  unfold quadF
  have step1 : ∀ k ∈ Finset.range n, ∀ l ∈ Finset.range n,
      A k l * (xs.set i v).getD k 0 * (xs.set i v).getD l 0 =
        A k l * xs.getD k 0 * xs.getD l 0
          + (v - xs.getD i 0) * (if k = i then A k l * xs.getD l 0 else 0)
          + (v - xs.getD i 0) * (if l = i then A k l * xs.getD k 0 else 0)
          + (v - xs.getD i 0) ^ 2 *
              (if k = i then (if l = i then A k l else 0) else 0) := by
    intro k _ l _
    rw [getD_set xs i v k (by omega), getD_set xs i v l (by omega)]
    by_cases hk : k = i <;> by_cases hl : l = i <;> simp [hk, hl] <;> ring
  rw [Finset.sum_congr rfl fun k hk =>
    Finset.sum_congr rfl fun l hl => step1 k hk l hl]
  simp only [Finset.sum_add_distrib]
  have e2 : ∑ k ∈ Finset.range n, ∑ l ∈ Finset.range n,
      (v - xs.getD i 0) * (if k = i then A k l * xs.getD l 0 else 0)
      = (v - xs.getD i 0) * ∑ l ∈ Finset.range n, A i l * xs.getD l 0 := by
    simp only [← Finset.mul_sum]
    congr 1
    have inner : ∀ k ∈ Finset.range n,
        (∑ l ∈ Finset.range n, if k = i then A k l * xs.getD l 0 else 0) =
          (if k = i then ∑ l ∈ Finset.range n, A i l * xs.getD l 0 else 0) := by
      intro k _
      by_cases hk : k = i
      · subst hk; simp
      · simp [hk]
    rw [Finset.sum_congr rfl inner,
      Finset.sum_ite_eq' (Finset.range n) i
        fun _ => ∑ l ∈ Finset.range n, A i l * xs.getD l 0]
    simp [hiN]
  have e3 : ∑ k ∈ Finset.range n, ∑ l ∈ Finset.range n,
      (v - xs.getD i 0) * (if l = i then A k l * xs.getD k 0 else 0)
      = (v - xs.getD i 0) * ∑ k ∈ Finset.range n, A k i * xs.getD k 0 := by
    simp only [← Finset.mul_sum]
    congr 1
    have inner : ∀ k ∈ Finset.range n,
        (∑ l ∈ Finset.range n, if l = i then A k l * xs.getD k 0 else 0) =
          A k i * xs.getD k 0 := by
      intro k _
      rw [Finset.sum_ite_eq' (Finset.range n) i fun l => A k l * xs.getD k 0]
      simp [hiN]
    rw [Finset.sum_congr rfl inner]
  have e4 : ∑ k ∈ Finset.range n, ∑ l ∈ Finset.range n,
      (v - xs.getD i 0) ^ 2 *
        (if k = i then (if l = i then A k l else 0) else 0)
      = (v - xs.getD i 0) ^ 2 * A i i := by
    simp only [← Finset.mul_sum]
    congr 1
    have inner : ∀ k ∈ Finset.range n,
        (∑ l ∈ Finset.range n, if k = i then (if l = i then A k l else 0) else 0) =
          (if k = i then A i i else 0) := by
      intro k _
      by_cases hk : k = i
      · simp [hk, Finset.sum_ite_eq', hiN]
      · simp [hk]
    rw [Finset.sum_congr rfl inner,
      Finset.sum_ite_eq' (Finset.range n) i fun _ => A i i]
    simp [hiN]
  rw [e2, e3, e4]
  ring

/-- The centred difference of the quadratic form in direction `i` around
the current coordinate is exactly the row plus column linear form — the
square terms cancel. -/
theorem quad_cdiff (n : ℕ) (A : ℕ → ℕ → ℚ) (y : List ℚ) (i : ℕ) (dx : ℚ)
    (hi : i < n) (hlen : y.length = n) (hdx : dx ≠ 0) :
    (quadF n A (y.set i (y.getD i 0 + dx)) -
        quadF n A (y.set i (y.getD i 0 - dx))) / (2 * dx) =
      (∑ l ∈ Finset.range n, A i l * y.getD l 0) +
        ∑ l ∈ Finset.range n, A l i * y.getD l 0 := by
  rw [quadF_set n A y i _ hi hlen, quadF_set n A y i _ hi hlen]
  field_simp
  ring

/-- Claim C7: on the quadratic `x ↦ xᵀ A x` with `A` symmetric, the nested
centred differences of `get_hessian` are exact and return the matrix
`2 A`, for every probe point and every `dx > 0`. -/
theorem c7_quad_hessian (n : ℕ) (A : ℕ → ℕ → ℚ) (x0 : List ℚ) (dx : ℚ)
    (hdx : 0 < dx) (hsym : ∀ i j, A i j = A j i) (hlen : x0.length = n) :
    get_hessian (quadF n A) x0 dx =
      (List.range n).map fun i => (List.range n).map fun j => 2 * A i j := by
  have hdx0 : dx ≠ 0 := ne_of_gt hdx
  apply List.ext_getElem
  · simp [get_hessian, hlen]
  · intro i h1 h2
    have hi : i < n := by simpa using h2
    simp only [get_hessian, List.getElem_map, List.getElem_range]
    apply List.ext_getElem
    · simp [hlen]
    · intro j hj1 hj2
      have hj : j < n := by simpa using hj2
      simp only [List.getElem_map, List.getElem_range, hlen]
      rw [quad_cdiff n A (x0.set j (x0.getD j 0 + dx)) i dx hi (by simp [hlen]) hdx0,
        quad_cdiff n A (x0.set j (x0.getD j 0 - dx)) i dx hi (by simp [hlen]) hdx0,
        linSum_set n (fun l => A i l) x0 j (x0.getD j 0 + dx) hj hlen,
        linSum_set n (fun l => A l i) x0 j (x0.getD j 0 + dx) hj hlen,
        linSum_set n (fun l => A i l) x0 j (x0.getD j 0 - dx) hj hlen,
        linSum_set n (fun l => A l i) x0 j (x0.getD j 0 - dx) hj hlen,
        hsym j i]
      field_simp
      ring

/-- Witness for C7 at a concrete symmetric `2 × 2` quadratic. -/
theorem c7_witness :
    get_hessian (quadF 2 fun i j => if i = j then 1 else 2) [5, 7] 1 =
      (List.range 2).map fun i =>
        (List.range 2).map fun j => 2 * (if i = j then (1 : ℚ) else 2) :=
  c7_quad_hessian 2 (fun i j => if i = j then 1 else 2) [5, 7] 1 (by norm_num)
    (fun i j => by by_cases h : i = j <;> simp [h, eq_comm]) (by norm_num)

/-- `HeapExt` is reflexive on sufficiently long heaps. -/
theorem heapExt_refl (m : ℕ) (h : Heap) (hm : m ≤ h.cells.length) :
    HeapExt m h h := ⟨hm, fun _ _ => rfl⟩

/-- `HeapExt` composes. -/
theorem heapExt_trans {m : ℕ} {h1 h2 h3 : Heap}
    (a : HeapExt m h1 h2) (b : HeapExt m h2 h3) : HeapExt m h1 h3 :=
  ⟨b.1, fun x hx => (b.2 x hx).trans (a.2 x hx)⟩

/-- Allocation never changes existing cells. -/
theorem heapExt_alloc (m : ℕ) (h : Heap) (v : List ℚ)
    (hm : m ≤ h.cells.length) : HeapExt m h (h.alloc v).2 := by
  refine ⟨by simp [Heap.alloc]; omega, fun a ha => ?_⟩
  simp only [Heap.alloc, Heap.read]
  rw [List.getD_append _ _ _ _ (by omega)]

/-- Writing at an address `≥ m` leaves the first `m` cells intact. -/
theorem heapExt_write (m : ℕ) (h : Heap) (a : ℕ) (v : List ℚ)
    (hm : m ≤ h.cells.length) (ha : m ≤ a) : HeapExt m h (h.write a v) := by
  refine ⟨by simp [Heap.write]; omega, fun b hb => ?_⟩
  simp only [Heap.write, Heap.read]
  rw [List.getD_eq_getElem?_getD, List.getD_eq_getElem?_getD,
    List.getElem?_set_ne (by omega)]

/-- A closure call allocates a copy and writes only to it. -/
theorem pdCall_ext (func : List ℚ → ℚ) (src i : ℕ) (x : ℚ) (h : Heap)
    (m : ℕ) (hm : m ≤ h.cells.length) :
    HeapExt m h (pdCall func src i x h).2 := by
  unfold pdCall
  refine heapExt_trans (heapExt_alloc m h _ hm) (heapExt_write m _ _ _ ?_ ?_)
  · simp [Heap.alloc]; omega
  · exact hm

/-- A gradient entry leaves the first `m` cells intact. -/
theorem pdEntry_ext (func : List ℚ → ℚ) (src i : ℕ) (dx : ℚ) (h : Heap)
    (m : ℕ) (hm : m ≤ h.cells.length) :
    HeapExt m h (pdEntry func src i dx h).2 := by
  unfold pdEntry
  have e1 := pdCall_ext func src i ((h.read src).getD i 0 + dx) h m hm
  exact heapExt_trans e1 (pdCall_ext func src i _ _ m e1.1)

/-- The gradient loop leaves the first `m` cells intact. -/
theorem pdHeapAux_ext (func : List ℚ → ℚ) (src : ℕ) (dx : ℚ) :
    ∀ (is : List ℕ) (h : Heap) (m : ℕ), m ≤ h.cells.length →
      HeapExt m h (pdHeapAux func src dx is h).2 := by
  intro is
  induction is with
  | nil => intro h m hm; exact heapExt_refl m h hm
  | cons i is ih =>
    intro h m hm
    have e1 := pdEntry_ext func src i dx h m hm
    exact heapExt_trans e1 (ih _ m e1.1)

/-- The inner closure `f2` of the Hessian leaves the first `m` cells
intact. -/
theorem hessF2_ext (func : List ℚ → ℚ) (x0a i j : ℕ) (xj dx : ℚ) (h : Heap)
    (m : ℕ) (hm : m ≤ h.cells.length) :
    HeapExt m h (hessF2 func x0a i j xj dx h).2 := by
  simp only [hessF2]
  set p := h.alloc (h.read x0a) with hp
  set h2 := p.2.write p.1 ((p.2.read p.1).set j xj) with hh2
  set c := (h2.read p.1).getD i 0 with hc
  set r1 := pdCall func p.1 i (c + dx) h2 with hr1
  set r2 := pdCall func p.1 i (c - dx) r1.2 with hr2
  have e1 : HeapExt m h h2 := by
    rw [hh2, hp]
    refine heapExt_trans (heapExt_alloc m h _ hm) (heapExt_write m _ _ _ ?_ hm)
    simp [Heap.alloc]; omega
  have e2 : HeapExt m h2 r1.2 := by
    rw [hr1]; exact pdCall_ext func p.1 i (c + dx) h2 m e1.1
  have e3 : HeapExt m r1.2 r2.2 := by
    rw [hr2]; exact pdCall_ext func p.1 i (c - dx) r1.2 m e2.1
  exact heapExt_trans e1 (heapExt_trans e2 e3)

/-- One Hessian entry leaves the first `m` cells intact. -/
theorem hessEntry_ext (func : List ℚ → ℚ) (x0a i j : ℕ) (dx : ℚ) (h : Heap)
    (m : ℕ) (hm : m ≤ h.cells.length) :
    HeapExt m h (hessEntry func x0a i j dx h).2 := by
  unfold hessEntry
  have e1 := hessF2_ext func x0a i j ((h.read x0a).getD j 0 + dx) dx h m hm
  exact heapExt_trans e1 (hessF2_ext func x0a i j _ dx _ m e1.1)

/-- The inner Hessian loop leaves the first `m` cells intact. -/
theorem hessRowAux_ext (func : List ℚ → ℚ) (x0a i : ℕ) (dx : ℚ) :
    ∀ (js : List ℕ) (h : Heap) (m : ℕ), m ≤ h.cells.length →
      HeapExt m h (hessRowAux func x0a i dx js h).2 := by
  intro js
  induction js with
  | nil => intro h m hm; exact heapExt_refl m h hm
  | cons j js ih =>
    intro h m hm
    have e1 := hessEntry_ext func x0a i j dx h m hm
    exact heapExt_trans e1 (ih _ m e1.1)

/-- The outer Hessian loop leaves the first `m` cells intact. -/
theorem hessAux_ext (func : List ℚ → ℚ) (x0a : ℕ) (dx : ℚ) :
    ∀ (is : List ℕ) (h : Heap) (m : ℕ), m ≤ h.cells.length →
      HeapExt m h (hessAux func x0a dx is h).2 := by
  intro is
  induction is with
  | nil => intro h m hm; exact heapExt_refl m h hm
  | cons i is ih =>
    intro h m hm
    have e1 := hessRowAux_ext func x0a i dx
      (List.range (h.read x0a).length) h m hm
    exact heapExt_trans e1 (ih _ m e1.1)

/-- Claim C8: `partial_derivative` and `get_hessian` never mutate their
input list — every coordinate perturbation goes to a freshly allocated
copy, so after either call the cell holding the argument reads exactly as
before. -/
theorem c8_no_mutation (func : List ℚ → ℚ) (dx : ℚ) (h : Heap) (src : ℕ)
    (hsrc : src < h.cells.length) :
    (partial_derivative_heap func src dx h).2.read src = h.read src ∧
    (get_hessian_heap func src dx h).2.read src = h.read src :=
  ⟨(pdHeapAux_ext func src dx _ h h.cells.length le_rfl).2 src hsrc,
   (hessAux_ext func src dx _ h h.cells.length le_rfl).2 src hsrc⟩

/-- Witness for C8 on a concrete two-element list. -/
theorem c8_witness :
    (partial_derivative_heap (fun xs => xs.getD 0 0) 0 1 ⟨[[1, 2]]⟩).2.read 0 =
      Heap.read ⟨[[1, 2]]⟩ 0 :=
  (c8_no_mutation (fun xs => xs.getD 0 0) 1 ⟨[[1, 2]]⟩ 0 (by norm_num)).1
